import Mathlib

/-!
Shallow embedding of the placement planner of
`alpa_serve/placement_policy/model_parallelism.py` and of the TSV reader of
`benchmarks/alpa/plot_goodput_vs_slo.py`.

Python numbers (floats and ints) are modelled as rationals.  A Python
exception (`KeyError`, `ZeroDivisionError`, `ValueError` from `max([])`,
`IndexError`) is modelled as `Option.none`; a function that cannot raise on
the modelled path returns its value directly.
-/

/-- `ParallelConfig(dp, op, pp)` from `alpa_serve.profiling`: data-parallel,
operator-parallel and pipeline-parallel degrees. -/
structure ParallelConfig where
  dp : ℕ
  op : ℕ
  pp : ℕ
deriving DecidableEq, Repr

/-- Group size of a configuration: `np.prod(x)` over the triple. -/
def ParallelConfig.size (c : ParallelConfig) : ℕ := c.dp * c.op * c.pp

/-- One value of `profiling_result.para_dict`: per-batch-size lists of
per-stage latencies (`latency`, an insertion-ordered dict modelled as an
association list) and the per-stage weight memory (`weight_mem`). -/
structure LatencyMem where
  latency : List (ℕ × List ℚ)
  weight_mem : List ℚ
deriving DecidableEq

/-- `profiling_result`: the mapping `ParallelConfig -> LatencyMem`, modelled
as an association list (`para_dict`). -/
structure ProfilingResult where
  para_dict : List (ParallelConfig × LatencyMem)
deriving DecidableEq

/-- The fields of `ModelData` that `model_parallelism.py` reads. -/
structure ModelData where
  rate : ℚ
  slo : ℚ
  profiling_result : ProfilingResult
deriving DecidableEq

/-- The fields of `ClusterEnv` that `model_parallelism.py` reads. -/
structure ClusterEnv where
  num_devices : ℕ
  num_devices_per_node : ℕ
  mem_budget : ℚ
deriving DecidableEq

/-- `ModelPlacement(group_configs, group_models)` from `base_policy`. -/
structure ModelPlacement where
  group_configs : List ParallelConfig
  group_models : List (List ℕ)
deriving DecidableEq, Repr

/-- Python `para_dict.get(parallel_config, None)`. -/
def paraLookup : List (ParallelConfig × LatencyMem) → ParallelConfig → Option LatencyMem
  | [], _ => none
  | (k, v) :: rest, pc => if k = pc then some v else paraLookup rest pc

/-- Python `max(l)` on a list of numbers: `ValueError` (`none`) on `[]`. -/
def pymax : List ℚ → Option ℚ
  | [] => none
  | x :: rest => some (rest.foldl max x)

/-- The loop of `compute_capability` (lines 34-40): fold over the profiled
batch sizes, skipping `b > max_bs`; Python raises `ValueError` on `max([])`
and `ZeroDivisionError` on floor-division by zero, both modelled as `none`.
Python float floor division `x // y` is `⌊x / y⌋`. -/
def capLoop (slo : ℚ) (max_bs : ℕ) : List (ℕ × List ℚ) → ℚ → Option ℚ
  | [], acc => some acc
  | (b, ls) :: rest, acc =>
    if b > max_bs then capLoop slo max_bs rest acc
    else
      match pymax ls with
      | none => none
      | some m =>
        if m = 0 then none
        else capLoop slo max_bs rest (max acc (((⌊(slo - ls.sum) / m⌋ : ℤ) : ℚ) + 1))

/-- `compute_capability(model_data, parallel_config, max_bs)`
(model_parallelism.py lines 25-42). -/
def compute_capability (md : ModelData) (pc : ParallelConfig) (max_bs : ℕ) : Option ℚ :=
  match paraLookup md.profiling_result.para_dict pc with
  | none => some 0
  | some lm => (capLoop md.slo max_bs lm.latency 0).map (· * (99 / 100) ^ pc.pp)

/-- Total maximum of a list of rationals, agreeing with Python `max` on
nonempty lists. -/
def listMax (l : List ℚ) : ℚ := l.foldl max (l.headD 0)

/-- The capability formula as the spec states it (spec section 3,
"Capability"): the maximum (at least 0) over profiled batch sizes
`b ≤ max_bs` of `⌊(slo - Σ latency(b)) / max latency(b)⌋ + 1`, multiplied by
`0.99 ^ pp`; `0` when the config is absent from the profile. -/
def capability_spec (md : ModelData) (pc : ParallelConfig) (max_bs : ℕ) : ℚ :=
  match paraLookup md.profiling_result.para_dict pc with
  | none => 0
  | some lm =>
    (((lm.latency.filter (fun e => e.1 ≤ max_bs)).map
        (fun e => ((⌊(md.slo - e.2.sum) / listMax e.2⌋ : ℤ) : ℚ) + 1)).foldl max 0)
      * (99 / 100) ^ pc.pp

lemma pymax_eq_listMax (x : ℚ) (rest : List ℚ) :
    pymax (x :: rest) = some (listMax (x :: rest)) := by
  simp [pymax, listMax, List.headD]

lemma capLoop_eq_foldl (slo : ℚ) (mbs : ℕ) (L : List (ℕ × List ℚ)) :
    ∀ acc : ℚ,
      (∀ e ∈ L, e.1 ≤ mbs → e.2 ≠ [] ∧ listMax e.2 ≠ 0) →
      capLoop slo mbs L acc =
        some ((L.filter (fun e => e.1 ≤ mbs)).foldl
          (fun a e => max a (((⌊(slo - e.2.sum) / listMax e.2⌋ : ℤ) : ℚ) + 1)) acc) := by
  induction L with
  | nil => intro acc _; simp [capLoop]
  | cons e rest ih =>
    intro acc h
    obtain ⟨b, ls⟩ := e
    by_cases hb : b > mbs
    · have : ¬ (b ≤ mbs) := by omega
      simp only [capLoop, if_pos hb, List.filter_cons]
      rw [ih acc (fun x hx => h x (List.mem_cons_of_mem _ hx))]
      simp [this]
    · have hble : b ≤ mbs := by omega
      have hhead := h (b, ls) (List.mem_cons_self _ _) hble
      obtain ⟨hne, hmz⟩ := hhead
      obtain ⟨x, xs, rfl⟩ : ∃ x xs, ls = x :: xs := by
        cases ls with
        | nil => exact absurd rfl hne
        | cons x xs => exact ⟨x, xs, rfl⟩
      simp only [capLoop, if_neg hb, pymax_eq_listMax]
      rw [if_neg hmz]
      rw [ih _ (fun x hx => h x (List.mem_cons_of_mem _ hx))]
      simp [List.filter_cons, hble]

/-- Claim C1: when every profiled batch size `b ≤ max_bs` of the looked-up
config has a nonempty latency list with nonzero maximum (so that the Python
loop raises no exception), `compute_capability` returns exactly the spec's
formula: the maximum (at least 0) over batch sizes `b ≤ max_bs` of
`⌊(slo - Σ latency(b)) / max latency(b)⌋ + 1`, times `0.99 ^ pp`; and when
the config is absent from the profile it returns `0`. -/
theorem compute_capability_eq_spec (md : ModelData) (pc : ParallelConfig) (max_bs : ℕ)
    (h : ∀ lm, paraLookup md.profiling_result.para_dict pc = some lm →
      ∀ e ∈ lm.latency, e.1 ≤ max_bs → e.2 ≠ [] ∧ listMax e.2 ≠ 0) :
    compute_capability md pc max_bs = some (capability_spec md pc max_bs) := by
  cases hlk : paraLookup md.profiling_result.para_dict pc with
  | none => simp [compute_capability, capability_spec, hlk]
  | some lm =>
    have hcl := capLoop_eq_foldl md.slo max_bs lm.latency 0 (h lm hlk)
    simp [compute_capability, capability_spec, hlk, hcl, List.foldl_map]

/-- Witness for C1 on a concrete profile (spec section 8, scenario 1 shape):
one model, config `(1,1,1)`, `slo = 1`, latency `[1/2]` at batch size 1;
the capability is `(⌊(1 - 1/2) / (1/2)⌋ + 1) * 0.99 = 2 * 99/100`. -/
theorem compute_capability_eq_spec_witness :
    compute_capability
      ⟨1, 1, ⟨[(⟨1, 1, 1⟩, ⟨[(1, [1/2])], [1]⟩)]⟩⟩ ⟨1, 1, 1⟩ 1 =
      some (capability_spec ⟨1, 1, ⟨[(⟨1, 1, 1⟩, ⟨[(1, [1/2])], [1]⟩)]⟩⟩ ⟨1, 1, 1⟩ 1) :=
  compute_capability_eq_spec _ _ _ (by
    intro lm hlk e he hb
    simp [paraLookup] at hlk
    subst hlk
    simp at he
    subst he
    refine ⟨by simp, ?_⟩
    norm_num [listMax])

lemma capLoop_none_of_bad (slo : ℚ) (mbs : ℕ) :
    ∀ (L : List (ℕ × List ℚ)) (acc : ℚ),
      (∃ e ∈ L, e.1 ≤ mbs ∧ (pymax e.2 = none ∨ pymax e.2 = some 0)) →
      capLoop slo mbs L acc = none := by
  intro L
  induction L with
  | nil => intro acc h; obtain ⟨e, he, _⟩ := h; exact absurd he (List.not_mem_nil e)
  | cons e rest ih =>
    intro acc h
    obtain ⟨b, ls⟩ := e
    by_cases hb : b > mbs
    · simp only [capLoop, if_pos hb]
      apply ih
      obtain ⟨x, hx, hx1, hx2⟩ := h
      rcases List.mem_cons.mp hx with hhd | htl
      · exfalso; rw [hhd] at hx1; omega
      · exact ⟨x, htl, hx1, hx2⟩
    · cases hm : pymax ls with
      | none => simp only [capLoop, if_neg hb, hm]
      | some m =>
        by_cases hmz : m = 0
        · simp only [capLoop, if_neg hb, hm, hmz, if_pos]
        · simp only [capLoop, if_neg hb, hm, if_neg hmz]
          apply ih
          obtain ⟨x, hx, hx1, hx2⟩ := h
          rcases List.mem_cons.mp hx with hhd | htl
          · exfalso
            rw [hhd] at hx2
            simp only [hm] at hx2
            rcases hx2 with h1 | h1
            · exact Option.noConfusion h1
            · exact hmz (Option.some.inj h1)
          · exact ⟨x, htl, hx1, hx2⟩

/-- Amended claim C5: when the looked-up config has some profiled batch size
`b ≤ max_bs` whose per-stage latency list has maximum `0`, the Python code
raises `ZeroDivisionError` at `(slo - sum(ls)) // max(ls)` (modelled as
`none`): the config is not treated as infeasible and `0` is not returned. -/
theorem compute_capability_zero_latency_fails (md : ModelData) (pc : ParallelConfig)
    (max_bs : ℕ) (lm : LatencyMem)
    (hlk : paraLookup md.profiling_result.para_dict pc = some lm)
    (hbad : ∃ e ∈ lm.latency, e.1 ≤ max_bs ∧ pymax e.2 = some 0) :
    compute_capability md pc max_bs = none := by
  have hnone : capLoop md.slo max_bs lm.latency 0 = none := by
    apply capLoop_none_of_bad
    obtain ⟨e, he, h1, h2⟩ := hbad
    exact ⟨e, he, h1, Or.inr h2⟩
  simp [compute_capability, hlk, hnone]

/-- Witness for the amended C5 at a concrete profile: latency list `[0]` at
batch size 1 with `max_bs = 1`. -/
theorem compute_capability_zero_latency_fails_witness :
    compute_capability ⟨1, 1, ⟨[(⟨1, 1, 1⟩, ⟨[(1, [0])], [1]⟩)]⟩⟩ ⟨1, 1, 1⟩ 1 = none :=
  compute_capability_zero_latency_fails _ _ _ ⟨[(1, [0])], [1]⟩
    (by simp [paraLookup])
    ⟨(1, [0]), by simp, by norm_num, by simp [pymax]⟩

/-- Counterexample to claim C5 as stated: on the profile whose latency list
for batch size 1 is `[0]` (maximum 0), `compute_capability` with
`max_bs = 1` does not return `f = 0`; it raises (`none`), refuting "does not
fail: it treats that config as infeasible and returns f = 0". -/
theorem compute_capability_zero_latency_cex :
    compute_capability ⟨1, 1, ⟨[(⟨1, 1, 1⟩, ⟨[(1, [0])], [1]⟩)]⟩⟩ ⟨1, 1, 1⟩ 1 ≠ some 0 ∧
    compute_capability ⟨1, 1, ⟨[(⟨1, 1, 1⟩, ⟨[(1, [0])], [1]⟩)]⟩⟩ ⟨1, 1, 1⟩ 1 = none := by
  have hnone : compute_capability ⟨1, 1, ⟨[(⟨1, 1, 1⟩, ⟨[(1, [0])], [1]⟩)]⟩⟩
      ⟨1, 1, 1⟩ 1 = none := rfl
  refine ⟨?_, hnone⟩
  rw [hnone]
  exact fun h => Option.noConfusion h

lemma le_foldl_max (l : List ℚ) : ∀ a : ℚ, a ≤ l.foldl max a := by
  induction l with
  | nil => intro a; exact le_refl a
  | cons y rest ih =>
    intro a
    exact le_trans (le_max_left a y) (ih (max a y))

lemma mem_le_foldl_max (l : List ℚ) : ∀ a x, x ∈ l → x ≤ l.foldl max a := by
  induction l with
  | nil => intro a x hx; exact absurd hx (List.not_mem_nil x)
  | cons y rest ih =>
    intro a x hx
    rcases List.mem_cons.mp hx with h | h
    · subst h
      exact le_trans (le_max_right a x) (le_foldl_max rest (max a x))
    · exact ih (max a y) x h

lemma pymax_is_ub (ls : List ℚ) (m : ℚ) (hm : pymax ls = some m) :
    ls ≠ [] ∧ ∀ x ∈ ls, x ≤ m := by
  cases ls with
  | nil => exact absurd hm (by simp [pymax])
  | cons y rest =>
    have hmv : rest.foldl max y = m := by simpa [pymax] using hm
    subst hmv
    refine ⟨by simp, ?_⟩
    intro x hx
    rcases List.mem_cons.mp hx with h | h
    · subst h; exact le_foldl_max rest x
    · exact mem_le_foldl_max rest y x h

lemma sum_neg_of_all_neg (l : List ℚ) (hne : l ≠ []) (h : ∀ x ∈ l, x < 0) :
    l.sum < 0 := by
  induction l with
  | nil => exact absurd rfl hne
  | cons y rest ih =>
    cases rest with
    | nil => simpa using h y (by simp)
    | cons z zs =>
      have hy := h y (by simp)
      have hrest : (z :: zs).sum < 0 :=
        ih (by simp) (fun x hx => h x (List.mem_cons_of_mem _ hx))
      simp only [List.sum_cons] at hrest ⊢
      linarith

lemma capLoop_mono (mbs : ℕ) (slo1 slo2 : ℚ) (h0 : 0 ≤ slo1) (h12 : slo1 ≤ slo2) :
    ∀ (L : List (ℕ × List ℚ)) (acc1 acc2 v1 v2 : ℚ), acc1 ≤ acc2 → 0 ≤ acc2 →
      capLoop slo1 mbs L acc1 = some v1 → capLoop slo2 mbs L acc2 = some v2 → v1 ≤ v2 := by
  intro L
  induction L with
  | nil =>
    intro acc1 acc2 v1 v2 hacc _ e1 e2
    simp only [capLoop] at e1 e2
    rw [← Option.some.inj e1, ← Option.some.inj e2]
    exact hacc
  | cons e rest ih =>
    intro acc1 acc2 v1 v2 hacc hacc2 e1 e2
    obtain ⟨b, ls⟩ := e
    by_cases hb : b > mbs
    · simp only [capLoop, if_pos hb] at e1 e2
      exact ih acc1 acc2 v1 v2 hacc hacc2 e1 e2
    · cases hm : pymax ls with
      | none =>
        simp only [capLoop, if_neg hb, hm] at e1
        exact Option.noConfusion e1
      | some m =>
        by_cases hmz : m = 0
        · simp only [capLoop, if_neg hb, hm, hmz, if_pos] at e1
          exact Option.noConfusion e1
        · simp only [capLoop, if_neg hb, hm, if_neg hmz] at e1 e2
          set c1 : ℚ := ((⌊(slo1 - ls.sum) / m⌋ : ℤ) : ℚ) + 1 with hc1
          set c2 : ℚ := ((⌊(slo2 - ls.sum) / m⌋ : ℤ) : ℚ) + 1 with hc2
          have hacc2n : 0 ≤ max acc2 c2 := le_trans hacc2 (le_max_left _ _)
          refine ih _ _ v1 v2 ?_ hacc2n e1 e2
          rcases lt_trichotomy m 0 with hneg | hzero | hpos
          · obtain ⟨hne, hub⟩ := pymax_is_ub ls m hm
            have hsum : ls.sum < 0 :=
              sum_neg_of_all_neg ls hne (fun x hx => lt_of_le_of_lt (hub x hx) hneg)
            have hq : (slo1 - ls.sum) / m < 0 :=
              div_neg_of_pos_of_neg (by linarith) hneg
            have hfl : ⌊(slo1 - ls.sum) / m⌋ < 0 := by
              by_contra hcon
              push_neg at hcon
              exact absurd (Int.floor_nonneg.mp hcon) (by linarith)
            have hc1le : c1 ≤ 0 := by
              rw [hc1]
              have hint : ⌊(slo1 - ls.sum) / m⌋ ≤ -1 := by omega
              have hcst : (⌊(slo1 - ls.sum) / m⌋ : ℚ) ≤ -1 := by exact_mod_cast hint
              linarith
            have : max acc1 c1 ≤ acc2 :=
              max_le (le_trans hacc (le_refl _)) (le_trans hc1le hacc2)
            exact le_trans this (le_max_left _ _)
          · exact absurd hzero hmz
          · have hq : (slo1 - ls.sum) / m ≤ (slo2 - ls.sum) / m :=
              (div_le_div_iff_of_pos_right hpos).mpr (by linarith)
            have hfl : (⌊(slo1 - ls.sum) / m⌋ : ℚ) ≤ (⌊(slo2 - ls.sum) / m⌋ : ℚ) := by
              exact_mod_cast Int.floor_le_floor hq
            exact max_le_max hacc (by rw [hc1, hc2]; linarith)

/-- Claim C8: `compute_capability` is monotone non-decreasing in the SLO: for
a fixed profile, config and `max_bs`, and SLO latency bounds
`0 ≤ slo1 ≤ slo2`, whenever both computations return a value, the value at
`slo1` is at most the value at `slo2`. -/
theorem compute_capability_mono_slo (pr : ProfilingResult) (r slo1 slo2 : ℚ)
    (pc : ParallelConfig) (mbs : ℕ) (v1 v2 : ℚ)
    (h0 : 0 ≤ slo1) (h12 : slo1 ≤ slo2)
    (h1 : compute_capability ⟨r, slo1, pr⟩ pc mbs = some v1)
    (h2 : compute_capability ⟨r, slo2, pr⟩ pc mbs = some v2) : v1 ≤ v2 := by
  cases hlk : paraLookup pr.para_dict pc with
  | none =>
    simp [compute_capability, hlk] at h1 h2
    rw [← h1, ← h2]
  | some lm =>
    simp only [compute_capability, hlk, Option.map_eq_some'] at h1 h2
    obtain ⟨c1, hcl1, hv1⟩ := h1
    obtain ⟨c2, hcl2, hv2⟩ := h2
    have hc := capLoop_mono mbs slo1 slo2 h0 h12 lm.latency 0 0 c1 c2
      (le_refl 0) (le_refl 0) hcl1 hcl2
    rw [← hv1, ← hv2]
    have hpen : (0 : ℚ) ≤ (99 / 100) ^ pc.pp := by positivity
    exact mul_le_mul_of_nonneg_right hc hpen

/-- Witness for C8: the concrete profile with latency `[1/2]` at batch size 1
gives capability `2 * 0.99 = 99/50` at `slo = 1` and `4 * 0.99 = 99/25` at
`slo = 2`, and indeed `99/50 ≤ 99/25`. -/
theorem compute_capability_mono_slo_witness : (99 / 50 : ℚ) ≤ 99 / 25 :=
  compute_capability_mono_slo ⟨[(⟨1, 1, 1⟩, ⟨[(1, [1/2])], [1]⟩)]⟩ 1 1 2
    ⟨1, 1, 1⟩ 1 (99 / 50) (99 / 25) (by norm_num) (by norm_num)
    (by norm_num [compute_capability, paraLookup, capLoop, pymax])
    (by norm_num [compute_capability, paraLookup, capLoop, pymax])

/-- The hard-coded `group_configs` of `ModelParallelismILP.__init__`
(lines 54-60): the null config and pipeline-only configs up to `pp = 8`. -/
def ilp_group_configs : List ParallelConfig :=
  [⟨0, 0, 0⟩, ⟨1, 1, 1⟩, ⟨1, 1, 2⟩, ⟨1, 1, 4⟩, ⟨1, 1, 8⟩]

/-- `group_sizes = [np.prod(x) for x in self.group_configs]` (lines 61-63). -/
def ilp_group_sizes : List ℕ := ilp_group_configs.map ParallelConfig.size

/-- The decode loop of `ModelParallelismILP.solve_placement` (lines 189-199),
walking the per-device-slot selected config ids `s_res` with slot index `j`:
a slot whose config has `group_sizes[config_id] = 0` is dropped; otherwise the
config is emitted together with the models `i < N` having `p_res[i][j] = 1`. -/
def ilp_decode_aux (N : ℕ) (p_res : ℕ → ℕ → Bool) :
    ℕ → List ℕ → List ParallelConfig × List (List ℕ)
  | _, [] => ([], [])
  | j, k :: rest =>
    let r := ilp_decode_aux N p_res (j + 1) rest
    if ilp_group_sizes.getD k 0 ≠ 0 then
      (ilp_group_configs.getD k ⟨0, 0, 0⟩ :: r.1,
       ((List.range N).filter (fun i => p_res i j)) :: r.2)
    else r

/-- The placement `ModelParallelismILP.solve_placement` returns (line 201),
built from the solver's selected config id per device slot (`s_res`, one id
per slot by constraint (e)) and the binary model-to-slot assignment `p_res`. -/
def ilp_decode (N : ℕ) (s_res : List ℕ) (p_res : ℕ → ℕ → Bool) : ModelPlacement :=
  ⟨(ilp_decode_aux N p_res 0 s_res).1, (ilp_decode_aux N p_res 0 s_res).2⟩

lemma ilp_size_getD_eq (k : ℕ) :
    ilp_group_sizes.getD k 0 = (ilp_group_configs.getD k ⟨0, 0, 0⟩).size := by
  match k with
  | 0 => rfl
  | 1 => rfl
  | 2 => rfl
  | 3 => rfl
  | 4 => rfl
  | n + 5 =>
    simp [ilp_group_sizes, ilp_group_configs, List.getD, ParallelConfig.size]

lemma ilp_decode_aux_sum (N : ℕ) (p_res : ℕ → ℕ → Bool) :
    ∀ (s_res : List ℕ) (j : ℕ),
      ((ilp_decode_aux N p_res j s_res).1.map ParallelConfig.size).sum =
        (s_res.map (fun k => ilp_group_sizes.getD k 0)).sum := by
  intro s_res
  induction s_res with
  | nil => intro j; rfl
  | cons k rest ih =>
    intro j
    by_cases hk : ilp_group_sizes.getD k 0 ≠ 0
    · simp only [ilp_decode_aux, if_pos hk, List.map_cons, List.sum_cons, ih (j + 1)]
      rw [ilp_size_getD_eq k]
    · push_neg at hk
      have hcond : ¬(ilp_group_sizes.getD k 0 ≠ 0) := by rw [hk]; simp
      simp only [ilp_decode_aux, if_neg hcond, List.map_cons, List.sum_cons, ih (j + 1)]
      omega

/-- Claim C2: when the solver's selection satisfies ILP constraint (d) of
line 139 — the sizes of the selected configs over all device slots sum to
`num_devices` — the decoded placement's group sizes sum to exactly
`num_devices` (dropping the null-size groups loses nothing, their size is 0). -/
theorem ilp_decode_sum_sizes (num_devices N : ℕ) (s_res : List ℕ)
    (p_res : ℕ → ℕ → Bool)
    (hconstraint : (s_res.map (fun k => ilp_group_sizes.getD k 0)).sum = num_devices) :
    (((ilp_decode N s_res p_res).group_configs).map ParallelConfig.size).sum =
      num_devices := by
  unfold ilp_decode
  rw [ilp_decode_aux_sum N p_res s_res 0]
  exact hconstraint

/-- Witness for C2 on a 4-device cluster: slots select config ids
`[2, 2, 0, 0]` (two pipeline-2 groups and two idle slots of size 0), so the
constraint sum is `2 + 2 + 0 + 0 = 4` and the decoded placement's group sizes
sum to 4. -/
theorem ilp_decode_sum_sizes_witness :
    (((ilp_decode 1 [2, 2, 0, 0] (fun _ _ => true)).group_configs).map
      ParallelConfig.size).sum = 4 :=
  ilp_decode_sum_sizes 4 1 [2, 2, 0, 0] (fun _ _ => true) (by decide)

/-- Claim C10: every group config the ILP decode emits is one of the four
non-null hard-coded configs `(1,1,1)`, `(1,1,2)`, `(1,1,4)`, `(1,1,8)`: its
data- and operator-parallel degrees are 1, its pipeline depth is in
`{1, 2, 4, 8}`, and its size is at most 8, whatever the cluster size. -/
theorem ilp_decode_configs_hardcoded (N : ℕ) (s_res : List ℕ)
    (p_res : ℕ → ℕ → Bool) (cfg : ParallelConfig)
    (hmem : cfg ∈ (ilp_decode N s_res p_res).group_configs) :
    cfg ∈ [(⟨1, 1, 1⟩ : ParallelConfig), ⟨1, 1, 2⟩, ⟨1, 1, 4⟩, ⟨1, 1, 8⟩] ∧
      cfg.dp = 1 ∧ cfg.op = 1 ∧ cfg.pp ∈ [1, 2, 4, 8] ∧ cfg.size ≤ 8 := by
  have hmain : ∀ (s : List ℕ) (j : ℕ), cfg ∈ (ilp_decode_aux N p_res j s).1 →
      cfg ∈ [(⟨1, 1, 1⟩ : ParallelConfig), ⟨1, 1, 2⟩, ⟨1, 1, 4⟩, ⟨1, 1, 8⟩] := by
    intro s
    induction s with
    | nil => intro j h; exact absurd h (List.not_mem_nil cfg)
    | cons k rest ih =>
      intro j h
      by_cases hk : ilp_group_sizes.getD k 0 ≠ 0
      · simp only [ilp_decode_aux, if_pos hk] at h
        rcases List.mem_cons.mp h with hhd | htl
        · subst hhd
          match k, hk with
          | 1, _ => simp [ilp_group_configs]
          | 2, _ => simp [ilp_group_configs]
          | 3, _ => simp [ilp_group_configs]
          | 4, _ => simp [ilp_group_configs]
          | 0, hk => exact absurd rfl hk
          | n + 5, hk =>
            exact absurd (by simp [ilp_group_sizes, ilp_group_configs, List.getD,
              ParallelConfig.size]) hk
        · exact ih (j + 1) htl
      · push_neg at hk
        have hcond : ¬(ilp_group_sizes.getD k 0 ≠ 0) := by rw [hk]; simp
        simp only [ilp_decode_aux, if_neg hcond] at h
        exact ih (j + 1) h
  have h4 := hmain s_res 0 hmem
  refine ⟨h4, ?_⟩
  rcases List.mem_cons.mp h4 with h | h4
  · subst h; exact ⟨rfl, rfl, by simp, by simp [ParallelConfig.size]⟩
  rcases List.mem_cons.mp h4 with h | h4
  · subst h; exact ⟨rfl, rfl, by simp, by simp [ParallelConfig.size]⟩
  rcases List.mem_cons.mp h4 with h | h4
  · subst h; exact ⟨rfl, rfl, by simp, by simp [ParallelConfig.size]⟩
  rcases List.mem_cons.mp h4 with h | h4
  · subst h; exact ⟨rfl, rfl, by simp, by simp [ParallelConfig.size]⟩
  · exact absurd h4 (List.not_mem_nil cfg)

/-- Witness for C10: on the concrete decode of `ilp_decode_sum_sizes_witness`
the first emitted config is `(1,1,2)`, and the theorem instantiates to it. -/
theorem ilp_decode_configs_hardcoded_witness :
    (⟨1, 1, 2⟩ : ParallelConfig) ∈
      [(⟨1, 1, 1⟩ : ParallelConfig), ⟨1, 1, 2⟩, ⟨1, 1, 4⟩, ⟨1, 1, 8⟩] ∧
      (⟨1, 1, 2⟩ : ParallelConfig).dp = 1 ∧ (⟨1, 1, 2⟩ : ParallelConfig).op = 1 ∧
      (⟨1, 1, 2⟩ : ParallelConfig).pp ∈ [1, 2, 4, 8] ∧
      (⟨1, 1, 2⟩ : ParallelConfig).size ≤ 8 :=
  ilp_decode_configs_hardcoded 1 [2, 2, 0, 0] (fun _ _ => true) ⟨1, 1, 2⟩ (by decide)

/-- `ModelParallelismILP.compute_max_stage_mem` (lines 65-71): a config absent
from the profile is priced at `mem_budget * 2` (excluding it from any budget);
a present config yields `max(weight_mem)`, a `ValueError` (`none`) on `[]`. -/
def compute_max_stage_mem (md : ModelData) (pc : ParallelConfig) (mem_budget : ℚ) :
    Option ℚ :=
  match paraLookup md.profiling_result.para_dict pc with
  | none => some (mem_budget * 2)
  | some lm => pymax lm.weight_mem

/-- Line 87 of `solve_placement`:
`c = [x.profiling_result.para_dict[ParallelConfig(1, 1, 1)].weight_mem[0] for x in model_datas]`.
The subscript raises `KeyError` when `(1,1,1)` is not in `para_dict` and
`IndexError` when `weight_mem` is empty; both are `none`. -/
def ilp_load_c (model_datas : List ModelData) : Option (List ℚ) :=
  model_datas.mapM (fun md =>
    (paraLookup md.profiling_result.para_dict ⟨1, 1, 1⟩).bind
      (fun lm => lm.weight_mem.head?))

/-- Claim C3 (code divergence): a model whose profile contains no config at
all is coerced to capability 0 by `compute_capability` and to the
out-of-budget demand `mem_budget * 2` by `compute_max_stage_mem`, but
`solve_placement` itself crashes before reaching the solver: line 87 indexes
`para_dict[ParallelConfig(1,1,1)]` unconditionally, a `KeyError` (`none`), so
no placement is returned for this input. -/
theorem ilp_missing_profile_crashes :
    ilp_load_c [⟨1, 1, ⟨[]⟩⟩] = none ∧
    compute_capability ⟨1, 1, ⟨[]⟩⟩ ⟨1, 1, 2⟩ 1 = some 0 ∧
    compute_max_stage_mem ⟨1, 1, ⟨[]⟩⟩ ⟨1, 1, 2⟩ 4 = some 8 := by
  refine ⟨rfl, rfl, ?_⟩
  norm_num [compute_max_stage_mem, paraLookup]

/-- pulp `LpAffineExpression.__truediv__` by a scalar: every coefficient and
the constant are divided; dividing by `0` raises `ZeroDivisionError`
(`none`). -/
def lp_div_scalar (coeffs : List ℚ) (const : ℚ) (a : ℚ) : Option (List ℚ × ℚ) :=
  if a = 0 then none else some (coeffs.map (· / a), const / a)

/-- Lines 133-134 of `solve_placement`: `for i in range(N): prob +=
min_tolerance <= cap[i] / a[i]`.  There is no conditional on `a[i]`: one
constraint is built per model, by dividing the capability expression
`cap[i]` (its coefficient vector over the `pxs` variables, constant 0) by
the scalar rate `a[i]`.  The two lists both have length `N` in the source. -/
def ilp_min_tol_constraints : List (List ℚ) → List ℚ → Option (List (List ℚ × ℚ))
  | [], _ => some []
  | _, [] => some []
  | c :: cs, r :: rs =>
    match lp_div_scalar c 0 r, ilp_min_tol_constraints cs rs with
    | some con, some rest => some (con :: rest)
    | _, _ => none

/-- The behaviour claim C6 ascribes to the code, modelled from the spec's
words: a model whose rate is 0 has its tolerance term treated as infinite and
is skipped when forming the min-tolerance constraints. -/
def ilp_min_tol_constraints_skip (caps : List (List ℚ)) (rates : List ℚ) :
    List (List ℚ × ℚ) :=
  ((caps.zip rates).filter (fun cr => cr.2 ≠ 0)).map
    (fun cr => (cr.1.map (· / cr.2), 0 / cr.2))

/-- Counterexample to claim C6: with one model of rate 0 (capability
coefficient vector `[1]`), the code's constraint formation raises
`ZeroDivisionError` (`none`) instead of skipping the model as the claimed
behaviour (`ilp_min_tol_constraints_skip`, which yields no constraint and no
failure) would. -/
theorem ilp_min_tol_zero_rate_cex :
    ilp_min_tol_constraints [[1]] [0] = none ∧
    ilp_min_tol_constraints_skip [[1]] [0] = [] := by
  constructor
  · rfl
  · rfl

/-- Amended claim C6: the ILP planner builds a min-tolerance constraint for
every model unconditionally, dividing `cap[i]` by `a[i]`; it fails with a
`ZeroDivisionError` exactly when some model (paired with its capability
vector) has rate 0, and otherwise produces one constraint per model — no
zero-rate model is ever skipped. -/
theorem ilp_min_tol_zero_rate_amended (caps : List (List ℚ)) (rates : List ℚ) :
    (ilp_min_tol_constraints caps rates = none ↔
      ∃ cr ∈ caps.zip rates, cr.2 = 0) ∧
    (∀ cs, ilp_min_tol_constraints caps rates = some cs →
      cs.length = (caps.zip rates).length) := by
  induction caps generalizing rates with
  | nil =>
    refine ⟨?_, ?_⟩
    · simp [ilp_min_tol_constraints]
    · intro cs hcs
      simp [ilp_min_tol_constraints] at hcs
      simp [← hcs]
  | cons c cstl ih =>
    cases rates with
    | nil =>
      refine ⟨?_, ?_⟩
      · simp [ilp_min_tol_constraints]
      · intro cs hcs
        simp [ilp_min_tol_constraints] at hcs
        simp [← hcs]
    | cons r rstl =>
      obtain ⟨ih1, ih2⟩ := ih rstl
      by_cases hr : r = 0
      · subst hr
        refine ⟨?_, ?_⟩
        · simp only [ilp_min_tol_constraints, lp_div_scalar, if_pos rfl]
          constructor
          · intro _
            exact ⟨(c, 0), by simp, rfl⟩
          · intro _
            rfl
        · intro cs hcs
          simp only [ilp_min_tol_constraints, lp_div_scalar, if_pos rfl] at hcs
          exact Option.noConfusion hcs
      · refine ⟨?_, ?_⟩
        · simp only [ilp_min_tol_constraints, lp_div_scalar, if_neg hr]
          cases htl : ilp_min_tol_constraints cstl rstl with
          | none =>
            simp only []
            constructor
            · intro _
              obtain ⟨cr, hmem, hcr⟩ := ih1.mp htl
              exact ⟨cr, List.mem_cons_of_mem _ hmem, hcr⟩
            · intro _
              trivial
          | some rest =>
            simp only []
            constructor
            · intro h
              exact Option.noConfusion h
            · intro hex
              obtain ⟨cr, hmem, hcr⟩ := hex
              rcases List.mem_cons.mp hmem with hhd | htl2
              · exfalso
                rw [hhd] at hcr
                exact hr hcr
              · exfalso
                have := ih1.mpr ⟨cr, htl2, hcr⟩
                rw [htl] at this
                exact Option.noConfusion this
        · intro cs hcs
          simp only [ilp_min_tol_constraints, lp_div_scalar, if_neg hr] at hcs
          cases htl : ilp_min_tol_constraints cstl rstl with
          | none =>
            rw [htl] at hcs
            exact Option.noConfusion hcs
          | some rest =>
            rw [htl] at hcs
            have hcseq : cs = (c.map (· / r), 0 / r) :: rest :=
              (Option.some.inj hcs).symm
            subst hcseq
            simp only [List.length_cons, List.zip_cons_cons]
            rw [ih2 rest htl]

/-- Modelled from the spec: `get_factors` is defined in `alpa_serve/util.py`,
which is not among the source files.  The spec reads "For every divisor `gs`
of `num_devices`" (section 4.G step 1), so `get_factors n` returns the
divisors of `n`, in increasing order. -/
def get_factors (n : ℕ) : List ℕ := (List.range' 1 n).filter (fun i => n % i == 0)

lemma mem_get_factors (n i : ℕ) :
    i ∈ get_factors n ↔ 1 ≤ i ∧ i ≤ n ∧ n % i = 0 := by
  simp only [get_factors, List.mem_filter, List.mem_range'_1, beq_iff_eq]
  omega

/-- `ModelParallelismSearch.enumerate_group_configs` (lines 338-356): for
every factor of `num_devices` that does not cross a node boundary uncleanly,
and every factorization `group_size = op * pp` within the `max_pp` and
`max_op` bounds, one skeleton of `num_devices / group_size` identical
groups with config `(1, op, pp)` and empty model lists. -/
def enumerate_group_configs (num_devices num_devices_per_node max_pp max_op : ℕ) :
    List ModelPlacement :=
  (get_factors num_devices).flatMap (fun group_size =>
    if group_size > num_devices_per_node ∧ group_size % num_devices_per_node ≠ 0 then
      []
    else
      (get_factors group_size).filterMap (fun pp =>
        if pp > max_pp ∨ group_size / pp > max_op then none
        else some ⟨List.replicate (num_devices / group_size) ⟨1, group_size / pp, pp⟩,
                   List.replicate (num_devices / group_size) []⟩))

/-- Claim C4: `enumerate_group_configs` returns exactly the skeletons the
spec describes — one for every divisor `gs` of `num_devices` that is not
skipped by the node-boundary rule and every factorization `gs = op * pp`
with `pp ≤ max_pp`, `op ≤ max_op`, the skeleton being `num_devices / gs`
identical groups `(1, op, pp)` with empty model sets — and concretely, with
`num_devices = 16`, `num_devices_per_node = 8` (bounds `max_pp = 8`,
`max_op = 4`), a group size of 16 is emitted and 12 is not. -/
theorem enumerate_group_configs_spec :
    (∀ (nd ndpn mpp mop : ℕ) (mp : ModelPlacement),
      mp ∈ enumerate_group_configs nd ndpn mpp mop ↔
        ∃ gs op pp, 1 ≤ gs ∧ gs ≤ nd ∧ nd % gs = 0 ∧
          ¬(gs > ndpn ∧ gs % ndpn ≠ 0) ∧ op * pp = gs ∧ pp ≤ mpp ∧ op ≤ mop ∧
          mp = ⟨List.replicate (nd / gs) ⟨1, op, pp⟩, List.replicate (nd / gs) []⟩) ∧
    ((enumerate_group_configs 16 8 8 4).any
        (fun mp => mp.group_configs.any (fun c => c.size == 16)) = true) ∧
    ((enumerate_group_configs 16 8 8 4).all
        (fun mp => mp.group_configs.all (fun c => !(c.size == 12))) = true) := by
  refine ⟨?_, by decide, by decide⟩
  intro nd ndpn mpp mop mp
  constructor
  · intro h
    rw [enumerate_group_configs, List.mem_flatMap] at h
    obtain ⟨gs, hgs, hmem⟩ := h
    rw [mem_get_factors] at hgs
    by_cases hskip : gs > ndpn ∧ gs % ndpn ≠ 0
    · rw [if_pos hskip] at hmem
      exact absurd hmem (List.not_mem_nil mp)
    · rw [if_neg hskip, List.mem_filterMap] at hmem
      obtain ⟨pp, hpp, heq⟩ := hmem
      rw [mem_get_factors] at hpp
      by_cases hguard : pp > mpp ∨ gs / pp > mop
      · rw [if_pos hguard] at heq
        exact Option.noConfusion heq
      · rw [if_neg hguard] at heq
        push_neg at hguard
        refine ⟨gs, gs / pp, pp, hgs.1, hgs.2.1, hgs.2.2, hskip, ?_, hguard.1, hguard.2,
          (Option.some.inj heq).symm⟩
        exact Nat.div_mul_cancel (Nat.dvd_of_mod_eq_zero hpp.2.2)
  · intro h
    obtain ⟨gs, op, pp, h1, h2, h3, h4, h5, h6, h7, h8⟩ := h
    have hpppos : 1 ≤ pp := by
      rcases Nat.eq_zero_or_pos pp with hz | hp
      · exfalso; rw [hz, Nat.mul_zero] at h5; omega
      · exact hp
    have hdvd : pp ∣ gs := ⟨op, by rw [← h5, Nat.mul_comm]⟩
    have hdiv : gs / pp = op := by
      rw [← h5, Nat.mul_div_cancel _ hpppos]
    rw [enumerate_group_configs, List.mem_flatMap]
    refine ⟨gs, ?_, ?_⟩
    · rw [mem_get_factors]; exact ⟨h1, h2, h3⟩
    · rw [if_neg h4, List.mem_filterMap]
      refine ⟨pp, ?_, ?_⟩
      · rw [mem_get_factors]
        exact ⟨hpppos, Nat.le_of_dvd (by omega) hdvd, Nat.mod_eq_zero_of_dvd hdvd⟩
      · rw [if_neg (by omega : ¬(pp > mpp ∨ gs / pp > mop)), hdiv, h8]

/-- Stable insertion of index `i` into a list of indices sorted ascending by
score: the sorting model used for `np.argsort(scores)` (line 398). -/
def insertAsc (scores : List ℚ) (i : ℕ) : List ℕ → List ℕ
  | [] => [i]
  | j :: rest =>
    if scores.getD i 0 < scores.getD j 0 then i :: j :: rest
    else j :: insertAsc scores i rest

/-- Indices `0 .. scores.length - 1` sorted ascending by score
(`np.argsort(scores)`, ties by index order). -/
def argsortAsc (scores : List ℚ) : List ℕ :=
  (List.range scores.length).foldr (insertAsc scores) []

/-- Lines 397-401 of `greedy_group_configs`: score the candidates and retain
the `beam_size` best, `np.argsort(scores)[::-1][:beam_size]`. -/
def topK (beam : ℕ) (scores : List ℚ) (cands : List ModelPlacement) :
    List ModelPlacement :=
  (((argsortAsc scores).reverse).take beam).map (fun i => cands.getD i ⟨[], []⟩)

/-- The candidate extensions one `cur_num` iteration of `greedy_group_configs`
builds (lines 374-396): `last_group_size` ranges over
`range(1, (cur_num - 1) % num_devices_per_node + 2)`, `pp` over its factors
within the bounds, and every parent in `beam_sols[cur_num - last_group_size]`
is extended by the appended group and handed to `fill`, which stands for the
`replica_placement_fast_greedy` primitive applied at line 392. -/
def greedy_step_candidates (ndpn mpp mop : ℕ) (fill : ModelPlacement → ModelPlacement)
    (beams : List (List ModelPlacement)) (cur_num : ℕ) : List ModelPlacement :=
  (List.range' 1 ((cur_num - 1) % ndpn + 1)).flatMap (fun lgs =>
    (get_factors lgs).flatMap (fun pp =>
      if pp > mpp ∨ lgs / pp > mop then []
      else (beams.getD (cur_num - lgs) []).map (fun sol =>
        fill ⟨sol.group_configs ++ [⟨1, lgs / pp, pp⟩], sol.group_models ++ [[]]⟩)))

/-- The `beam_sols` table of `greedy_group_configs` after iterations
`cur_num = 1 .. n` (lines 370-401): entries `beam_sols[0] .. beam_sols[n]`,
`beam_sols[0] = [ModelPlacement([], [])]`. -/
def greedy_build (ndpn mpp mop beam : ℕ) (fill : ModelPlacement → ModelPlacement)
    (getScores : List ModelPlacement → List ℚ) : ℕ → List (List ModelPlacement)
  | 0 => [[⟨[], []⟩]]
  | n + 1 =>
    let beams := greedy_build ndpn mpp mop beam fill getScores n
    let cands := greedy_step_candidates ndpn mpp mop fill beams (n + 1)
    beams ++ [topK beam (getScores cands) cands]

/-- `ModelParallelismSearch.greedy_group_configs` (lines 358-403), with the
two replica-placement primitives it imports from `base_policy` (not among
the source files) as parameters: `fillFast` stands for
`replica_placement_fast_greedy` and `fillLast` for
`replica_placement_on_last_group`.  The body applies `fillFast` (line 392);
the `replica_placement_on_last_group` call is commented out (line 388), so
`fillLast` is never used. -/
def greedy_group_configs (nd ndpn mpp mop beam : ℕ)
    (fillFast _fillLast : ModelPlacement → ModelPlacement)
    (getScores : List ModelPlacement → List ℚ) : List ModelPlacement :=
  (greedy_build ndpn mpp mop beam fillFast getScores nd).getD nd []

/-- The permitted last groups at device count `cur_num`, as claim C7 words
them: every last-group size allowed by the node-boundary rule, factored as
`(1, op, pp)` within the `max_pp` and `max_op` bounds, paired with its
size. -/
def permitted_last_groups (ndpn mpp mop cur_num : ℕ) : List (ℕ × ParallelConfig) :=
  (List.range' 1 ((cur_num - 1) % ndpn + 1)).flatMap (fun lgs =>
    (get_factors lgs).filterMap (fun pp =>
      if pp ≤ mpp ∧ lgs / pp ≤ mop then some (lgs, ⟨1, lgs / pp, pp⟩) else none))

/-- The beam table of the greedy constructive variant as the claim describes
it, generic in the primitive `fill` that fills replicas into the extended
skeleton: at each device count, each beam parent is extended by appending
one permitted last group, filled via `fill`, and the top `beam` by score are
retained. -/
def greedy_claim_build (ndpn mpp mop beam : ℕ) (fill : ModelPlacement → ModelPlacement)
    (getScores : List ModelPlacement → List ℚ) : ℕ → List (List ModelPlacement)
  | 0 => [[⟨[], []⟩]]
  | n + 1 =>
    let beams := greedy_claim_build ndpn mpp mop beam fill getScores n
    let cands := (permitted_last_groups ndpn mpp mop (n + 1)).flatMap (fun g =>
      (beams.getD (n + 1 - g.1) []).map (fun sol =>
        fill ⟨sol.group_configs ++ [g.2], sol.group_models ++ [[]]⟩))
    beams ++ [topK beam (getScores cands) cands]

/-- The greedy constructive variant exactly as claim C7 states it: replicas
are filled into each extended skeleton via the `on_last_group` primitive
(`fillLast`). -/
def greedy_group_configs_claim (nd ndpn mpp mop beam : ℕ)
    (_fillFast fillLast : ModelPlacement → ModelPlacement)
    (getScores : List ModelPlacement → List ℚ) : List ModelPlacement :=
  (greedy_claim_build ndpn mpp mop beam fillLast getScores nd).getD nd []

lemma greedy_step_candidates_eq_claim (ndpn mpp mop : ℕ)
    (fill : ModelPlacement → ModelPlacement) (beams : List (List ModelPlacement))
    (cur_num : ℕ) :
    greedy_step_candidates ndpn mpp mop fill beams cur_num =
      (permitted_last_groups ndpn mpp mop cur_num).flatMap (fun g =>
        (beams.getD (cur_num - g.1) []).map (fun sol =>
          fill ⟨sol.group_configs ++ [g.2], sol.group_models ++ [[]]⟩)) := by
  unfold greedy_step_candidates permitted_last_groups
  rw [List.flatMap_assoc]
  apply List.flatMap_congr
  intro lgs _
  induction get_factors lgs with
  | nil => rfl
  | cons pp rest ih =>
    by_cases hg : pp > mpp ∨ lgs / pp > mop
    · have hg2 : ¬(pp ≤ mpp ∧ lgs / pp ≤ mop) := by omega
      simp only [List.flatMap_cons, List.filterMap_cons, if_pos hg, if_neg hg2, ih]
      simp
    · have hg2 : pp ≤ mpp ∧ lgs / pp ≤ mop := by omega
      simp only [List.flatMap_cons, List.filterMap_cons, if_neg hg, if_pos hg2, ih]

lemma greedy_build_eq_claim (ndpn mpp mop beam : ℕ)
    (fill : ModelPlacement → ModelPlacement)
    (getScores : List ModelPlacement → List ℚ) :
    ∀ n, greedy_build ndpn mpp mop beam fill getScores n =
      greedy_claim_build ndpn mpp mop beam fill getScores n := by
  intro n
  induction n with
  | zero => rfl
  | succ n ih =>
    simp only [greedy_build, greedy_claim_build, ih,
      greedy_step_candidates_eq_claim]

lemma greedy_build_length (ndpn mpp mop beam : ℕ)
    (fill : ModelPlacement → ModelPlacement)
    (getScores : List ModelPlacement → List ℚ) :
    ∀ n, (greedy_build ndpn mpp mop beam fill getScores n).length = n + 1 := by
  intro n
  induction n with
  | zero => rfl
  | succ n ih => simp [greedy_build, ih]

/-- Amended claim C7: at every device count `cur_num` in `[1 .. num_devices]`
each beam parent is extended by appending one permitted last group, replicas
are filled into the extended skeleton via the `fast_greedy` primitive
(`replica_placement_fast_greedy`, line 392 — not `on_last_group`, whose call
is commented out), only the top `beam_size` extended placements by evaluator
score are retained, and the returned list has at most `beam_size`
placements. -/
theorem greedy_group_configs_amended (nd ndpn mpp mop beam : ℕ)
    (fillFast fillLast : ModelPlacement → ModelPlacement)
    (getScores : List ModelPlacement → List ℚ) (hbeam : 1 ≤ beam) :
    greedy_group_configs nd ndpn mpp mop beam fillFast fillLast getScores =
      (greedy_claim_build ndpn mpp mop beam fillFast getScores nd).getD nd [] ∧
    (greedy_group_configs nd ndpn mpp mop beam fillFast fillLast getScores).length
      ≤ beam := by
  constructor
  · unfold greedy_group_configs
    rw [greedy_build_eq_claim]
  · unfold greedy_group_configs
    cases nd with
    | zero => simpa [greedy_build] using hbeam
    | succ n =>
      simp only [greedy_build]
      rw [List.getD_append_right _ _ _ _
        (by rw [greedy_build_length]) ]
      rw [greedy_build_length]
      simp only [Nat.sub_self, List.getD]
      simp [topK]

/-- Witness for the amended C7 at `num_devices = 1`, one device per node,
beam width 1, identity primitives, constant scores. -/
theorem greedy_group_configs_amended_witness :
    greedy_group_configs 1 1 1 1 1 (fun p => p) (fun p => p)
        (fun l => l.map (fun _ => 0)) =
      (greedy_claim_build 1 1 1 1 (fun p => p)
        (fun l => l.map (fun _ => 0)) 1).getD 1 [] ∧
    (greedy_group_configs 1 1 1 1 1 (fun p => p) (fun p => p)
        (fun l => l.map (fun _ => 0))).length ≤ 1 :=
  greedy_group_configs_amended 1 1 1 1 1 (fun p => p) (fun p => p)
    (fun l => l.map (fun _ => 0)) (by decide)

/-- Counterexample to claim C7 as stated: with `num_devices = 1`, beam width
1, the `fast_greedy` primitive modelled as the identity and the
`on_last_group` primitive modelled as a function that tags the placement
with an extra `(7,7,7)` group, the source's `greedy_group_configs` (which
calls `fast_greedy`) and the claim's construction (which fills via
`on_last_group`) return different placements. -/
theorem greedy_group_configs_cex :
    greedy_group_configs 1 1 1 1 1 (fun p => p)
        (fun p => ⟨p.group_configs ++ [⟨7, 7, 7⟩], p.group_models⟩)
        (fun l => l.map (fun _ => 0)) ≠
      greedy_group_configs_claim 1 1 1 1 1 (fun p => p)
        (fun p => ⟨p.group_configs ++ [⟨7, 7, 7⟩], p.group_models⟩)
        (fun l => l.map (fun _ => 0)) := by
  decide

/-- Python `str.startswith` on character lists. -/
def listStartsWith : List Char → List Char → Bool
  | [], _ => true
  | _ :: _, [] => false
  | p :: ps, c :: cs => p = c && listStartsWith ps cs

/-- Python `str.split(sep)` on character lists: the pieces between the
occurrences of `sep`; always at least one piece. -/
def pysplit (sep : Char) : List Char → List (List Char)
  | [] => [[]]
  | c :: rest =>
    let r := pysplit sep rest
    if c = sep then [] :: r
    else
      match r with
      | h :: t => (c :: h) :: t
      | [] => [[c]]

/-- Python `int(s)` restricted to the decimal-digit strings the TSV format
produces: `none` (a `ValueError`) unless `s` is nonempty and all digits. -/
def pyint (l : List Char) : Option ℕ :=
  if l ≠ [] ∧ l.all Char.isDigit then
    some (l.foldl (fun a c => a * 10 + (c.toNat - 48)) 0)
  else none

def gammaTag : List Char := "GammaProcess".toList

def gammaHead : List Char := "GammaProcess(rate".toList

def gammaMid : List Char := ",cv".toList

/-- The arrival-process field parsing of `read_data`
(plot_goodput_vs_slo.py lines 59-67): when the value starts with
`GammaProcess`, split on `=`, take piece 1 up to the first `,` and piece 2 up
to the first `)`, and parse both with `int`. -/
def read_data_parse_arrival (s : List Char) : Option (ℕ × ℕ) :=
  if listStartsWith gammaTag s then
    match (pysplit '=' s)[1]? with
    | none => none
    | some s1 =>
      match (pysplit '=' s)[2]? with
      | none => none
      | some s2 =>
        match (pysplit ',' s1).head? with
        | none => none
        | some rate_str =>
          match (pysplit ')' s2).head? with
          | none => none
          | some cv_str =>
            match pyint rate_str, pyint cv_str with
            | some r, some c => some (r, c)
            | _, _ => none
  else none

/-- Python `str(n)` for a natural number: most-significant-first decimal
digits. -/
def natChars (n : ℕ) : List Char :=
  if n = 0 then ['0'] else ((Nat.digits 10 n).reverse).map Nat.digitChar

/-- The serialized TSV `arrival_process` value of spec section 6:
`GammaProcess(rate=<r>,cv=<cv>)`. -/
def gamma_arrival_str (r cv : ℕ) : List Char :=
  gammaHead ++ '=' :: (natChars r ++ (gammaMid ++ '=' :: (natChars cv ++ [')'])))

lemma listStartsWith_self_append (p l : List Char) :
    listStartsWith p (p ++ l) = true := by
  induction p with
  | nil => rfl
  | cons c cs ih => simp [listStartsWith, ih]

lemma pysplit_not_mem (sep : Char) (l : List Char) (h : sep ∉ l) :
    pysplit sep l = [l] := by
  induction l with
  | nil => rfl
  | cons c rest ih =>
    have hc : ¬ (c = sep) := fun he => h (he ▸ List.mem_cons_self c rest)
    have hrest : sep ∉ rest := fun hm => h (List.mem_cons_of_mem c hm)
    simp only [pysplit, if_neg hc, ih hrest]

lemma pysplit_sep_append (sep : Char) (l r : List Char) (h : sep ∉ l) :
    pysplit sep (l ++ sep :: r) = l :: pysplit sep r := by
  induction l with
  | nil => simp [pysplit]
  | cons c rest ih =>
    have hc : ¬ (c = sep) := fun he => h (he ▸ List.mem_cons_self c rest)
    have hrest : sep ∉ rest := fun hm => h (List.mem_cons_of_mem c hm)
    simp only [List.cons_append, pysplit, if_neg hc, List.append_eq, ih hrest]

lemma digitChar_isDigit (d : ℕ) (hd : d < 10) : (Nat.digitChar d).isDigit = true := by
  interval_cases d <;> decide

lemma digitChar_val (d : ℕ) (hd : d < 10) : (Nat.digitChar d).toNat - 48 = d := by
  interval_cases d <;> decide

lemma natChars_all_digits (n : ℕ) : ∀ c ∈ natChars n, c.isDigit = true := by
  intro c hc
  unfold natChars at hc
  by_cases h : n = 0
  · rw [if_pos h] at hc
    simp at hc
    subst hc
    decide
  · rw [if_neg h] at hc
    rw [List.mem_map] at hc
    obtain ⟨d, hd, rfl⟩ := hc
    rw [List.mem_reverse] at hd
    exact digitChar_isDigit d (Nat.digits_lt_base (by norm_num) hd)

lemma natChars_ne_nil (n : ℕ) : natChars n ≠ [] := by
  unfold natChars
  by_cases h : n = 0
  · simp [h]
  · rw [if_neg h]
    cases hd : Nat.digits 10 n with
    | nil => exact absurd (Nat.digits_eq_nil_iff_eq_zero.mp hd) h
    | cons d ds => simp

lemma isDigit_ne_seps (c : Char) (h : c.isDigit = true) :
    c ≠ '=' ∧ c ≠ ',' ∧ c ≠ ')' := by
  refine ⟨?_, ?_, ?_⟩ <;> rintro rfl <;> exact absurd h (by decide)

lemma sep_not_mem_natChars (n : ℕ) (sep : Char) (hsep : sep.isDigit = false) :
    sep ∉ natChars n := by
  intro hm
  have := natChars_all_digits n sep hm
  rw [hsep] at this
  exact Bool.noConfusion this

lemma foldl_digitChar_val (L : List ℕ) (hL : ∀ d ∈ L, d < 10) :
    ∀ a : ℕ, (L.map Nat.digitChar).foldl (fun a c => a * 10 + (c.toNat - 48)) a =
      L.foldl (fun a d => a * 10 + d) a := by
  induction L with
  | nil => intro a; rfl
  | cons d ds ih =>
    intro a
    simp only [List.map_cons, List.foldl_cons]
    rw [digitChar_val d (hL d (List.mem_cons_self d ds))]
    exact ih (fun x hx => hL x (List.mem_cons_of_mem d hx)) _

lemma foldr_eq_ofDigits (L : List ℕ) :
    L.foldr (fun d a => a * 10 + d) 0 = Nat.ofDigits 10 L := by
  induction L with
  | nil => simp [Nat.ofDigits]
  | cons d ds ih =>
    simp only [List.foldr_cons, ih, Nat.ofDigits_cons]
    ring

lemma pyint_natChars (n : ℕ) : pyint (natChars n) = some n := by
  unfold pyint
  rw [if_pos ⟨natChars_ne_nil n, List.all_eq_true.mpr (fun c hc =>
    natChars_all_digits n c hc)⟩]
  congr 1
  by_cases h : n = 0
  · subst h; decide
  · unfold natChars
    rw [if_neg h]
    have hlt : ∀ d ∈ (Nat.digits 10 n).reverse, d < 10 := by
      intro d hd
      rw [List.mem_reverse] at hd
      exact Nat.digits_lt_base (by norm_num) hd
    rw [foldl_digitChar_val _ hlt 0, List.foldl_reverse, foldr_eq_ofDigits,
      Nat.ofDigits_digits]

/-- Claim C9: serializing any `(rate, cv)` pair of naturals to the TSV
arrival-process format `GammaProcess(rate=<r>,cv=<cv>)` and re-parsing it
with the `read_data` field logic yields the identical pair back. -/
theorem read_data_gamma_roundtrip (r cv : ℕ) :
    read_data_parse_arrival (gamma_arrival_str r cv) = some (r, cv) := by
  have hr := natChars_all_digits r
  have hcv := natChars_all_digits cv
  have hne_r : ∀ sep : Char, sep.isDigit = false → sep ∉ natChars r :=
    fun sep hs => sep_not_mem_natChars r sep hs
  have hne_cv : ∀ sep : Char, sep.isDigit = false → sep ∉ natChars cv :=
    fun sep hs => sep_not_mem_natChars cv sep hs
  have hstart : listStartsWith gammaTag (gamma_arrival_str r cv) = true := by
    unfold gamma_arrival_str
    have hhead : gammaHead = gammaTag ++ ['(', 'r', 'a', 't', 'e'] := by decide
    rw [hhead, List.append_assoc]
    exact listStartsWith_self_append gammaTag _
  have hmem1 : '=' ∉ gammaHead := by decide
  have hmem2 : '=' ∉ natChars r ++ gammaMid := by
    intro hm
    rcases List.mem_append.mp hm with h | h
    · exact hne_r '=' (by decide) h
    · exact absurd h (by decide)
  have hmem3 : '=' ∉ natChars cv ++ [')'] := by
    intro hm
    rcases List.mem_append.mp hm with h | h
    · exact hne_cv '=' (by decide) h
    · exact absurd h (by decide)
  have hsplit : pysplit '=' (gamma_arrival_str r cv) =
      [gammaHead, natChars r ++ gammaMid, natChars cv ++ [')']] := by
    unfold gamma_arrival_str
    rw [pysplit_sep_append '=' gammaHead _ hmem1]
    have hassoc : natChars r ++ (gammaMid ++ '=' :: (natChars cv ++ [')'])) =
        (natChars r ++ gammaMid) ++ '=' :: (natChars cv ++ [')']) :=
      (List.append_assoc _ _ _).symm
    rw [hassoc, pysplit_sep_append '=' _ _ hmem2, pysplit_not_mem '=' _ hmem3]
  have hsplit_rate : pysplit ',' (natChars r ++ gammaMid) =
      natChars r :: pysplit ',' ['c', 'v'] := by
    have hmid : natChars r ++ gammaMid = natChars r ++ ',' :: ['c', 'v'] := by
      congr 1
    rw [hmid]
    exact pysplit_sep_append ',' (natChars r) ['c', 'v'] (hne_r ',' (by decide))
  have hsplit_cv : pysplit ')' (natChars cv ++ [')']) =
      natChars cv :: pysplit ')' [] := by
    exact pysplit_sep_append ')' (natChars cv) [] (hne_cv ')' (by decide))
  unfold read_data_parse_arrival
  rw [if_pos hstart, hsplit]
  simp only [List.getElem?_cons_succ, List.getElem?_cons_zero]
  rw [hsplit_rate, hsplit_cv]
  simp only [List.head?_cons]
  rw [pyint_natChars r, pyint_natChars cv]
